import Mathlib

/-!
Verification of the CSE255 homework scripts (hw1/hw1.py, hw2/hw2.py) against
their natural-language specification.

The distributed collections (Spark RDDs) are modelled as Lean lists; each RDD
transformation used by the scripts (`map`, `flatMap`, `filter`, `reduceByKey`,
`sortBy`, `take`, `collectAsMap`) is embedded as the corresponding list
operation.  Python strings are modelled as Lean `String`s (one `Char` per
Python character).  Fallible Python code (raising exceptions) is modelled with
`Option`: `none` marks a raised exception.
-/

set_option maxRecDepth 20000

namespace Hw1

/-- Embedding of `myfilter` (hw1.py lines 82-91): iterate over the characters
of the sentence, keeping digits, lower-casing letters and replacing every
other character by one space, accumulating the result string. -/
def myfilter (sentence : String) : String :=
  sentence.data.foldl
    (fun res ch =>
      if ch.isDigit then res.push ch
      else if ch.isAlpha then res.push ch.toLower
      else res.push ' ')
    ""

/-- The per-character transformation performed by `myfilter`. -/
def normChar (ch : Char) : Char :=
  if ch.isDigit then ch else if ch.isAlpha then ch.toLower else ' '

/-- Embedding of Python `str.split()` (no separator argument), used by
`mysplit` (hw1.py line 94): split on runs of whitespace, producing no empty
words.  `acc` holds the characters of the word currently being read, in
reverse order. -/
def splitWordsAux : List Char → List Char → List String
  | [], acc => if acc.isEmpty then [] else [String.mk acc.reverse]
  | c :: cs, acc =>
      if c.isWhitespace then
        if acc.isEmpty then splitWordsAux cs []
        else String.mk acc.reverse :: splitWordsAux cs []
      else splitWordsAux cs (c :: acc)

/-- Python `sentence.split()`. -/
def pySplit (sentence : String) : List String :=
  splitWordsAux sentence.data []

/-- Embedding of `mysplit` (hw1.py lines 93-98).  Python's
`range(len(words)-n+1)` is computed in `ℤ` and truncated to `ℕ`, matching
`range` of a negative number being empty. -/
def mysplit (sentence : String) (n : ℕ) : List String :=
  let words := pySplit sentence
  (List.range ((words.length : ℤ) - n + 1).toNat).map
    (fun i => " ".intercalate ((words.drop i).take n))

/-- Sequencing of a fallible computation over a list of indices: the result
is `none` as soon as one element fails.  Used to model a Python `for` loop
whose body can raise. -/
def forEachIdx {β : Type} (f : ℕ → Option β) : List ℕ → Option (List β)
  | [] => some []
  | i :: is =>
      match f i, forEachIdx f is with
      | some b, some bs => some (b :: bs)
      | _, _ => none

/-- Embedding of `printOutput` (hw1.py lines 56-61).  The function takes the
first 5 elements of the frequency-sorted collection and then unconditionally
indexes `top[i]` for `i = 0..4`, printing index, count and n-gram.  The
result models the list of printed rows; `none` models the `IndexError`
raised when fewer than 5 rows exist. -/
def printOutput (freq_ngramRDD : List (String × ℕ)) : Option (List (ℕ × ℕ × String)) :=
  let top := freq_ngramRDD.take 5
  forEachIdx (fun i => (top[i]?).map (fun p => (i + 1, p.2, p.1))) (List.range 5)

end Hw1

namespace Hw2

/-- All values carried by key `k`, in list order. -/
def valuesOf {κ ν : Type} [DecidableEq κ] (k : κ) (l : List (κ × ν)) : List ν :=
  l.filterMap (fun p => if p.1 = k then some p.2 else none)

/-- Folds a key's values with `op`; `none` when the key has no values. -/
def combineAll {ν : Type} (op : ν → ν → ν) : List ν → Option ν
  | [] => none
  | v :: vs => some (vs.foldl op v)

/-- List model of Spark's `reduceByKey`. -/
def reduceByKey {κ ν : Type} [DecidableEq κ] (op : ν → ν → ν) (l : List (κ × ν)) :
    List (κ × ν) :=
  (l.map Prod.fst).dedup.filterMap
    (fun k => (combineAll op (valuesOf k l)).map (fun v => (k, v)))

/-- Group id of a user (`help4`, hw2.py lines 682-687): the partition id from
the pickle table when the user is in it, otherwise 7. -/
def help4 (mypickle : String → Option ℕ) (uid : String) : ℕ :=
  match mypickle uid with
  | some gid => gid
  | none => 7

/-- Embedding of `inter_usertweets` (hw2.py line 561): per user, the set of
distinct tokens over all of the user's tweets — `map` to
`(uid, set(tok.tokenize(text)))`, `reduceByKey` with set union,
`mapValues(list)`.  Python sets are modelled as duplicate-free lists
(`List.dedup` for the set constructor, `List.union` for set union). -/
def inter_usertweets (tokenize : String → List String)
    (usertweets : List (String × String)) : List (String × List String) :=
  reduceByKey (fun a b => a ∪ b)
    (usertweets.map (fun x => (x.1, (tokenize x.2).dedup)))

/-- The across-all-groups per-token user counts (first part of `tokens`,
hw2.py line 563): flatten the distinct-token lists, map each token to 1 and
`reduceByKey` with addition. -/
def tokenCounts (tokenize : String → List String)
    (usertweets : List (String × String)) : List (String × ℕ) :=
  reduceByKey (· + ·)
    (((inter_usertweets tokenize usertweets).flatMap Prod.snd).map (fun w => (w, 1)))

/-- Embedding of `tokens` (hw2.py line 563) up to its final descending sort:
tokens mentioned by fewer than 100 users are dropped (`filter x[1] >= 100`).
The script sorts by count before `collectAsMap`; sorting permutes the pairs
and therefore does not change the key→count map `dic` (line 680) through
which this list is consumed, so the sort is omitted. -/
def tokens (tokenize : String → List String)
    (usertweets : List (String × String)) : List (String × ℕ) :=
  (tokenCounts tokenize usertweets).filter (fun x => 100 ≤ x.2)

/-- The `(user, token)` mention pairs, `inter_usertweets.flatMapValues(x ↦ x)`
(first step of `interresults`, hw2.py line 700). -/
def mention_pairs (tokenize : String → List String)
    (usertweets : List (String × String)) : List (String × String) :=
  (inter_usertweets tokenize usertweets).flatMap
    (fun p => p.2.map (fun t => (p.1, t)))

/-- Embedding of `interresults` up to the per-`(group, token)` user counts
(hw2.py line 700): keep the pairs whose token is in `dic`, key each by
`(group of user, token)` with value 1, and `reduceByKey` with addition. -/
def interresults_counts (tokenize : String → List String)
    (mypickle : String → Option ℕ)
    (usertweets : List (String × String)) : List ((ℕ × String) × ℕ) :=
  reduceByKey (· + ·)
    (((mention_pairs tokenize usertweets).filter
        (fun x => ((tokens tokenize usertweets).lookup x.2).isSome)).map
      (fun x => ((help4 mypickle x.1, x.2), 1)))

/-- The scored per-group entries (last `map` of `interresults`, hw2.py line
700): the script maps each `((gid, t), c_k)` to
`(gid, (t, get_rel_popularity(c_k, dic[t])))` where
`get_rel_popularity(c_k, c_all) = log2(c_k / c_all)`.  Since `log2` is
strictly increasing, the model carries the argument pair `(c_k, c_all)`
instead of the real number `log2(c_k / c_all)`; the ranking comparator
`rankRel` below compares these pairs exactly as the scores compare (the
bridge is proven in `rankRel_iff_logb`).  This keeps the pipeline
executable. -/
def scored (tokenize : String → List String) (mypickle : String → Option ℕ)
    (usertweets : List (String × String)) : List (ℕ × (String × (ℕ × ℕ))) :=
  (interresults_counts tokenize mypickle usertweets).map
    (fun x => (x.1.1, (x.1.2, (x.2, ((tokens tokenize usertweets).lookup x.1.2).getD 0))))

/-- Lexicographic comparison of character sequences, modelling Python's
ordering of strings (code-point by code-point). -/
def lexLe : List Char → List Char → Bool
  | [], _ => true
  | _ :: _, [] => false
  | a :: as, b :: bs =>
      if a < b then true
      else if b < a then false
      else lexLe as bs

/-- Python `x <= y` on token strings. -/
def strLe (a b : String) : Prop := lexLe a.data b.data = true

instance : DecidableRel strLe := fun a b => instDecidableEqBool _ _

/-- Cross-multiplied comparison of two `(c_k, c_all)` pairs: for positive
`c_all`s this says the first ratio is smaller. -/
def ratioLt (a b : ℕ × ℕ) : Prop := a.1 * b.2 < b.1 * a.2

/-- Cross-multiplied equality of two `(c_k, c_all)` ratios. -/
def ratioEq (a b : ℕ × ℕ) : Prop := a.1 * b.2 = b.1 * a.2

/-- The order produced by `sortBy(lambda x: (-x[1], x[0]))` (hw2.py line
706): ascending in the Python pair `(-score, token)`, i.e. `x` sorts no
later than `y` iff `x`'s score is strictly greater, or the two scores are
equal and `x`'s token is lexically no greater than `y`'s. -/
def rankRel (x y : String × (ℕ × ℕ)) : Prop :=
  ratioLt y.2 x.2 ∨ (ratioEq x.2 y.2 ∧ strLe x.1 y.1)

instance : DecidableRel rankRel := fun x y => by
  unfold rankRel ratioLt ratioEq
  infer_instance

/-- Embedding of the ranking on hw2.py lines 705-707: sort the group's
`(token, score)` pairs by the key `(-score, token)` and take the first 10.
Spark's `sortBy` is a stable total sort; insertion sort is one. -/
def rankTokens (A : List (String × (ℕ × ℕ))) : List (String × (ℕ × ℕ)) :=
  (A.insertionSort rankRel).take 10

/-- The ranked top-10 list of one user group (hw2.py lines 700-707):
`partitionBy(8)` sends a key `gid` to partition `gid % 8`, `glom` collects
each partition, and partition `g` is sorted and cut to 10. -/
def group_ranking (tokenize : String → List String)
    (mypickle : String → Option ℕ) (usertweets : List (String × String))
    (g : ℕ) : List (String × (ℕ × ℕ)) :=
  rankTokens
    (((scored tokenize mypickle usertweets).filter (fun x => x.1 % 8 == g)).map Prod.snd)

/-- Embedding of `get_rel_popularity` (hw2.py lines 494-495):
`log(1.0 * c_k / c_all) / log(2)`.  `none` models the exceptions: Python
raises `ZeroDivisionError` on `c_all = 0` and a math domain error on
`log 0.0` when `c_k = 0`. -/
noncomputable def get_rel_popularity (c_k c_all : ℕ) : Option ℝ :=
  if c_all = 0 then none
  else if c_k = 0 then none
  else some (Real.log ((c_k : ℝ) / (c_all : ℝ)) / Real.log 2)

/-- The relative-popularity score that hw2.py stores for a `(c_k, c_all)`
pair: `log2(c_k / c_all)`. -/
noncomputable def realScore (p : ℕ × ℕ) : ℝ := Real.logb 2 ((p.1 : ℝ) / (p.2 : ℝ))

/-- The ranking order stated by the spec: relative-popularity score strictly
descending, exact score ties broken by ascending lexical token order. -/
def scoreRel (x y : String × (ℕ × ℕ)) : Prop :=
  realScore y.2 < realScore x.2 ∨ (realScore x.2 = realScore y.2 ∧ strLe x.1 y.1)

/-- A minimal model of the JSON values `ujson.loads` can return. -/
inductive Json : Type
  | null : Json
  | bool : Bool → Json
  | num : Int → Json
  | str : String → Json
  | arr : List Json → Json
  | obj : List (String × Json) → Json

/-- Python `x[k]` on a parsed JSON value: the field of an object when
present; `none` models the `KeyError` (key absent) or `TypeError` (not a
dictionary) that the script would raise. -/
def Json.getKey : Json → String → Option Json
  | Json.obj fields, k => fields.lookup k
  | _, _ => none

/-- Embedding of `safe_parse` (hw2.py lines 152-159), parametrized by the
external parser `loads` (`none` models a raised `ValueError`).  A caught
`ValueError` and a parsed object without the `user` key both give `some []`
(the record is discarded); a parsable line that is not a JSON object makes
`json_object.keys()` raise `AttributeError`, modelled by `none`. -/
def safe_parse (loads : String → Option Json) (raw_json : String) :
    Option (List Json) :=
  match loads raw_json with
  | none => some []
  | some j =>
      match j with
      | Json.obj fields =>
          some (if fields.any (fun p => p.1 == "user") then [j] else [])
      | _ => none

/-- The field extraction `(x['user']['id_str'], x['text'])` applied to each
kept record (hw2.py line 162); `none` models the `KeyError`/`TypeError`
raised when a field is missing. -/
def extract_pair (j : Json) : Option (Json × Json) :=
  match j.getKey "user" with
  | none => none
  | some u =>
      match u.getKey "id_str" with
      | none => none
      | some i =>
          match j.getKey "text" with
          | none => none
          | some t => some (i, t)

/-- Maps a fallible function over a list; any failure fails the whole
computation, modelling an exception escaping a distributed `map`. -/
def mapOrFail {α β : Type} (f : α → Option β) : List α → Option (List β)
  | [] => some []
  | a :: as =>
      match f a, mapOrFail f as with
      | some b, some bs => some (b :: bs)
      | _, _ => none

/-- Embedding of the `usertweets` construction (hw2.py line 162):
`contents.flatMap(safe_parse).map(lambda x: (x['user']['id_str'], x['text']))`.
The result is the list of `(user id, text)` pairs, or `none` when some
record raises. -/
def usertweets_model (loads : String → Option Json) (lines : List String) :
    Option (List (Json × Json)) :=
  match mapOrFail (safe_parse loads) lines with
  | none => none
  | some parsed => mapOrFail extract_pair parsed.flatten

/-- Python `unicode.lower()` on a token: each character lower-cased. -/
def pyLower (s : String) : String := String.mk (s.data.map Char.toLower)

/-- One body character of the URL regex (hw2.py line 374):
`[a-zA-Z]`, `[0-9]`, `[$-_@.&+]` (a character range covering code points
0x24-0x5F; the listed `@.&+` lie inside it), `[!*\(\),]`, or the `%hh`
escape whose own characters also lie in the `$-_` range. -/
def urlBodyChar (c : Char) : Bool :=
  c.isAlpha || c.isDigit || (decide ('$' ≤ c) && decide (c ≤ '_')) ||
    ['!', '*', '(', ')', ','].contains c

/-- Strips the literal `pat` from the front of `cs` case-insensitively
(`word_re` and `emoticon_re` are compiled with `re.I`); `pat` is given
lower-case. -/
def stripCI : List Char → List Char → Option (List Char)
  | [], cs => some cs
  | _ :: _, [] => none
  | p :: ps, c :: cs => if c.toLower = p then stripCI ps cs else none

/-- Does `http[s]?://(...)+ ` match at the start of `cs`? -/
def urlAt (cs : List Char) : Bool :=
  match stripCI "http".data cs with
  | none => false
  | some rest =>
      let rest2 := match stripCI "s".data rest with
        | some r => r
        | none => rest
      match stripCI "://".data rest2 with
      | none => false
      | some body =>
          match body with
          | [] => false
          | c :: _ => urlBodyChar c

def urlSearchAux : List Char → Bool
  | [] => false
  | c :: cs => urlAt (c :: cs) || urlSearchAux cs

/-- `emoticon_re.search(x)` (hw2.py line 438): `emoticon_re` is compiled on
line 408 from `regex_strings[1]`, which is the URL pattern, so this searches
`x` for a URL occurrence. -/
def emoticon_re_search (s : String) : Bool := urlSearchAux s.data

/-- Eyes of `emoticon_string`: `[:;=8]`. -/
def isEyes (c : Char) : Bool := [':', ';', '=', '8'].contains c

/-- Optional nose of `emoticon_string`: `[-o*']` (with `re.I`, also `O`). -/
def isNose (c : Char) : Bool := ['-', 'o', 'O', '*', Char.ofNat 39].contains c

/-- Mouth of `emoticon_string`: `[)]([dDpP/:}{@|\]`. -/
def isMouth (c : Char) : Bool :=
  [')', ']', '(', '[', 'd', 'D', 'p', 'P', '/', ':', Char.ofNat 125,
    Char.ofNat 123, '@', '|', Char.ofNat 92].contains c

/-- Optional leading/trailing `[<>]` of `emoticon_string`. -/
def isAngle (c : Char) : Bool := ['<', '>'].contains c

/-- Forward alternative of `emoticon_string`: `[<>]? eyes nose? mouth`. -/
def emoticonFwd : List Char → Bool
  | [e, m] => isEyes e && isMouth m
  | [a, e, m] => (isAngle a && isEyes e && isMouth m) ||
      (isEyes a && isNose e && isMouth m)
  | [a, e, n, m] => isAngle a && isEyes e && isNose n && isMouth m
  | _ => false

/-- Mirrored alternative of `emoticon_string`: `mouth nose? eyes [<>]?`. -/
def emoticonBwd : List Char → Bool
  | [m, e] => isMouth m && isEyes e
  | [m, e, a] => (isMouth m && isNose e && isEyes a) ||
      (isMouth m && isEyes e && isAngle a)
  | [m, n, e, a] => isMouth m && isNose n && isEyes e && isAngle a
  | _ => false

/-- A token that is an emoticon: a full match of `emoticon_string`
(hw2.py lines 341-352), the pattern the tokenizer's documentation says keeps
its original case. -/
def isEmoticon (s : String) : Bool := emoticonFwd s.data || emoticonBwd s.data

/-- The case-adjustment step of `Tokenizer.tokenize` (hw2.py lines 436-438):
with `preserve_case = False` each extracted token is lower-cased unless
`emoticon_re.search` matches it. -/
def tokenize_case_step (preserve_case : Bool) (words : List String) :
    List String :=
  if preserve_case then words
  else words.map (fun x => if emoticon_re_search x then x else pyLower x)

end Hw2

/-- Witness input: the identity-ish tokenizer used for concrete runs (each
tweet text is a single token). -/
def tokW : String → List String := fun s => [s]

/-- Witness input: user "0" tweets "rare" once, and users "0".."99" (100
distinct users) each tweet "pop". -/
def utwW : List (String × String) :=
  ("0", "rare") :: (List.range 100).map (fun i => (Nat.repr i, "pop"))

namespace Hw1

/-! Helper lemmas about characters, used for the normalizer claims. -/

theorem char_toNat_ofNat {n : ℕ} (h : n < 55296) : (Char.ofNat n).toNat = n := by
  simp [Char.ofNat, Char.ofNatAux, Char.toNat, Nat.isValidChar, h, UInt32.toNat]

theorem char_isDigit_iff {c : Char} : c.isDigit = true ↔ 48 ≤ c.toNat ∧ c.toNat ≤ 57 := by
  simp [Char.isDigit, Char.toNat, UInt32.le_def, BitVec.le_def, UInt32.toNat]

theorem char_isUpper_iff {c : Char} : c.isUpper = true ↔ 65 ≤ c.toNat ∧ c.toNat ≤ 90 := by
  simp [Char.isUpper, Char.toNat, UInt32.le_def, BitVec.le_def, UInt32.toNat]

theorem char_isLower_iff {c : Char} : c.isLower = true ↔ 97 ≤ c.toNat ∧ c.toNat ≤ 122 := by
  simp [Char.isLower, Char.toNat, UInt32.le_def, BitVec.le_def, UInt32.toNat]

theorem char_isAlpha_iff {c : Char} :
    c.isAlpha = true ↔ (65 ≤ c.toNat ∧ c.toNat ≤ 90) ∨ (97 ≤ c.toNat ∧ c.toNat ≤ 122) := by
  simp [Char.isAlpha, char_isUpper_iff, char_isLower_iff]

theorem char_toLower_of_upper {c : Char} (h : 65 ≤ c.toNat ∧ c.toNat ≤ 90) :
    c.toLower.toNat = c.toNat + 32 := by
  rw [Char.toLower, if_pos h]
  exact char_toNat_ofNat (by omega)

theorem char_toLower_of_not_upper {c : Char} (h : ¬(65 ≤ c.toNat ∧ c.toNat ≤ 90)) :
    c.toLower = c := by
  rw [Char.toLower, if_neg h]

/-- The characterization of `myfilter` as a character-by-character map. -/
theorem myfilter_data (s : String) : (myfilter s).data = s.data.map normChar := by
  have hfun : ∀ res : String, ∀ ch : Char,
      (if ch.isDigit then res.push ch
       else if ch.isAlpha then res.push ch.toLower
       else res.push ' ') = res.push (normChar ch) := by
    intro res ch
    unfold normChar
    split_ifs <;> rfl
  have haux : ∀ (l : List Char) (acc : String),
      (l.foldl (fun res ch =>
        if ch.isDigit then res.push ch
        else if ch.isAlpha then res.push ch.toLower
        else res.push ' ') acc).data = acc.data ++ l.map normChar := by
    intro l
    induction l with
    | nil => intro acc; simp
    | cons c cs ih =>
        intro acc
        rw [List.foldl_cons, hfun, ih, String.data_push]
        simp
  simpa using haux s.data ""

/-- Applying `normChar` twice is the same as applying it once. -/
theorem normChar_idem (ch : Char) : normChar (normChar ch) = normChar ch := by
  by_cases hd : ch.isDigit = true
  · simp [normChar, hd]
  · by_cases ha : ch.isAlpha = true
    · have hcase := char_isAlpha_iff.mp ha
      rcases hcase with hup | hlo
      · -- upper-case letter: `toLower` lands in [97, 122]
        have hval : ch.toLower.toNat = ch.toNat + 32 := char_toLower_of_upper hup
        have hd2 : ch.toLower.isDigit = false := by
          rw [Bool.eq_false_iff]
          intro hcon
          have := char_isDigit_iff.mp hcon
          omega
        have ha2 : ch.toLower.isAlpha = true := by
          rw [char_isAlpha_iff]
          right
          omega
        have hfix : ch.toLower.toLower = ch.toLower := by
          apply char_toLower_of_not_upper
          omega
        simp [normChar, hd, ha, hd2, ha2, hfix]
      · -- lower-case letter: `toLower` is the identity
        have hfix : ch.toLower = ch := by
          apply char_toLower_of_not_upper
          omega
        simp [normChar, hd, ha, hfix]
    · -- neither digit nor letter: the output is a space
      have hsp : normChar ' ' = ' ' := by decide
      simp [normChar, hd, ha]

end Hw1

namespace Hw2

theorem valuesOf_cons {κ ν : Type} [DecidableEq κ] {k : κ} {p : κ × ν} {l : List (κ × ν)} :
    valuesOf k (p :: l) = if p.1 = k then p.2 :: valuesOf k l else valuesOf k l := by
  by_cases h : p.1 = k <;> simp [valuesOf, List.filterMap_cons, h]

theorem valuesOf_eq_nil_iff {κ ν : Type} [DecidableEq κ] {k : κ} {l : List (κ × ν)} :
    valuesOf k l = [] ↔ k ∉ l.map Prod.fst := by
  induction l with
  | nil => simp [valuesOf]
  | cons p rest ih =>
      rw [valuesOf_cons]
      by_cases h : p.1 = k
      · refine iff_of_false (by simp [h]) ?_
        intro hc
        exact hc (List.mem_map.mpr ⟨p, List.mem_cons_self _ _, h⟩)
      · rw [if_neg h, ih]
        constructor
        · intro hk hc
          rcases List.mem_map.mp hc with ⟨q, hq, hfst⟩
          rcases List.mem_cons.mp hq with rfl | hq2
          · exact h hfst
          · exact hk (List.mem_map.mpr ⟨q, hq2, hfst⟩)
        · intro hk hc
          rcases List.mem_map.mp hc with ⟨q, hq, hfst⟩
          exact hk (List.mem_map.mpr ⟨q, List.mem_cons_of_mem _ hq, hfst⟩)

theorem lookup_filterMap_keys {κ ν : Type} [BEq κ] [LawfulBEq κ] (keys : List κ)
    (g : κ → Option ν) (k : κ) :
    (keys.filterMap (fun k => (g k).map (fun v => (k, v)))).lookup k =
      if k ∈ keys then g k else none := by
  induction keys with
  | nil => simp [List.lookup]
  | cons k₀ ks ih =>
      by_cases h : k = k₀
      · subst h
        cases hg : g k with
        | none => simp [List.filterMap_cons, hg, ih]
        | some v => simp [List.filterMap_cons, hg, List.lookup]
      · have hbeq : (k == k₀) = false := by simpa using h
        cases hg : g k₀ with
        | none => simp [List.filterMap_cons, hg, ih, h]
        | some v => simp [List.filterMap_cons, hg, List.lookup, hbeq, ih, h]

/-- Characterization of `reduceByKey` through `lookup`. -/
theorem lookup_reduceByKey {κ ν : Type} [DecidableEq κ] [BEq κ] [LawfulBEq κ]
    (op : ν → ν → ν) (l : List (κ × ν)) (k : κ) :
    (reduceByKey op l).lookup k = combineAll op (valuesOf k l) := by
  rw [reduceByKey, lookup_filterMap_keys]
  by_cases h : k ∈ l.map Prod.fst
  · rw [if_pos (List.mem_dedup.mpr h)]
  · rw [if_neg (fun hc => h (List.mem_dedup.mp hc)), valuesOf_eq_nil_iff.mpr h]
    rfl

theorem map_fst_filterMap_keys {κ ν : Type} (keys : List κ) (g : κ → Option ν)
    (h : ∀ k ∈ keys, (g k).isSome) :
    (keys.filterMap (fun k => (g k).map (fun v => (k, v)))).map Prod.fst = keys := by
  induction keys with
  | nil => simp
  | cons k ks ih =>
      have hk := h k (List.mem_cons_self _ _)
      cases hv : g k with
      | none => rw [hv] at hk; simp at hk
      | some v =>
          simp only [List.filterMap_cons, hv, Option.map_some']
          rw [List.map_cons]
          exact congrArg (k :: ·) (ih (fun k2 hk2 => h k2 (List.mem_cons_of_mem _ hk2)))

theorem map_fst_reduceByKey {κ ν : Type} [DecidableEq κ] (op : ν → ν → ν)
    (l : List (κ × ν)) :
    (reduceByKey op l).map Prod.fst = (l.map Prod.fst).dedup := by
  rw [reduceByKey]
  apply map_fst_filterMap_keys
  intro k hk
  have hmem : k ∈ l.map Prod.fst := List.mem_dedup.mp hk
  cases hv : valuesOf k l with
  | nil => exact absurd (valuesOf_eq_nil_iff.mp hv) (by simpa using hmem)
  | cons v vs => simp [combineAll, hv]

theorem nodup_keys_reduceByKey {κ ν : Type} [DecidableEq κ] (op : ν → ν → ν)
    (l : List (κ × ν)) :
    ((reduceByKey op l).map Prod.fst).Nodup := by
  rw [map_fst_reduceByKey]
  exact List.nodup_dedup _

theorem mem_keys_reduceByKey {κ ν : Type} [DecidableEq κ] (op : ν → ν → ν)
    (l : List (κ × ν)) (k : κ) :
    k ∈ (reduceByKey op l).map Prod.fst ↔ k ∈ l.map Prod.fst := by
  rw [map_fst_reduceByKey]
  exact List.mem_dedup

/-- In a list with no duplicate keys, membership and `lookup` agree. -/
theorem lookup_eq_some_of_mem {κ ν : Type} [BEq κ] [LawfulBEq κ] {l : List (κ × ν)}
    {k : κ} {v : ν} (hnd : (l.map Prod.fst).Nodup) (h : (k, v) ∈ l) :
    l.lookup k = some v := by
  induction l with
  | nil => simp at h
  | cons p rest ih =>
      rcases List.mem_cons.mp h with rfl | h2
      · simp [List.lookup]
      · have hne : k ≠ p.1 := by
          intro hc
          rw [List.map_cons, List.nodup_cons] at hnd
          exact hnd.1 (hc ▸ List.mem_map.mpr ⟨(k, v), h2, rfl⟩)
        have hbeq : (k == p.1) = false := by simpa using hne
        cases p with
        | mk k₀ v₀ =>
            simp only [List.lookup, hbeq]
            exact ih (by rw [List.map_cons, List.nodup_cons] at hnd; exact hnd.2) h2

theorem mem_of_lookup_eq_some {κ ν : Type} [BEq κ] [LawfulBEq κ] {l : List (κ × ν)}
    {k : κ} {v : ν} (h : l.lookup k = some v) : (k, v) ∈ l := by
  induction l with
  | nil => simp [List.lookup] at h
  | cons p rest ih =>
      cases p with
      | mk k₀ v₀ =>
          by_cases hk : k = k₀
          · subst hk
            simp [List.lookup] at h
            simp [h]
          · have hbeq : (k == k₀) = false := by simpa using hk
            simp only [List.lookup, hbeq] at h
            exact List.mem_cons_of_mem _ (ih h)

/-! ### Order facts about the ranking comparator -/

theorem lexLe_cons {a b : Char} {as bs : List Char} :
    lexLe (a :: as) (b :: bs) =
      if a < b then true else if b < a then false else lexLe as bs := rfl

theorem lexLe_total : ∀ a b : List Char, lexLe a b = true ∨ lexLe b a = true
  | [], _ => Or.inl rfl
  | _ :: _, [] => Or.inr rfl
  | a :: as, b :: bs => by
      rcases lt_trichotomy a b with h | h | h
      · left; rw [lexLe_cons, if_pos h]
      · subst h
        rw [lexLe_cons, if_neg (lt_irrefl a), if_neg (lt_irrefl a),
          lexLe_cons, if_neg (lt_irrefl a), if_neg (lt_irrefl a)]
        exact lexLe_total as bs
      · right; rw [lexLe_cons, if_pos h]

theorem lexLe_trans : ∀ a b c : List Char,
    lexLe a b = true → lexLe b c = true → lexLe a c = true
  | [], _, _, _, _ => rfl
  | _ :: _, [], _, h1, _ => by simp [lexLe] at h1
  | _ :: _, _ :: _, [], _, h2 => by simp [lexLe] at h2
  | a :: as, b :: bs, c :: cs, h1, h2 => by
      rw [lexLe_cons] at h1 h2
      rw [lexLe_cons]
      rcases lt_trichotomy a b with hab | hab | hab
      · rcases lt_trichotomy b c with hbc | hbc | hbc
        · rw [if_pos (lt_trans hab hbc)]
        · rw [if_pos (hbc ▸ hab)]
        · rw [if_neg (lt_asymm hbc), if_pos hbc] at h2
          simp at h2
      · subst hab
        rw [if_neg (lt_irrefl a), if_neg (lt_irrefl a)] at h1
        rcases lt_trichotomy a c with hac | hac | hac
        · rw [if_pos hac]
        · subst hac
          rw [if_neg (lt_irrefl a), if_neg (lt_irrefl a)] at h2 ⊢
          exact lexLe_trans as bs cs h1 h2
        · rw [if_neg (lt_asymm hac), if_pos hac] at h2
          simp at h2
      · rw [if_neg (lt_asymm hab), if_pos hab] at h1
        simp at h1

theorem lexLe_antisymm : ∀ a b : List Char,
    lexLe a b = true → lexLe b a = true → a = b
  | [], [], _, _ => rfl
  | [], _ :: _, _, h2 => by simp [lexLe] at h2
  | _ :: _, [], h1, _ => by simp [lexLe] at h1
  | a :: as, b :: bs, h1, h2 => by
      rw [lexLe_cons] at h1 h2
      rcases lt_trichotomy a b with hab | hab | hab
      · rw [if_neg (lt_asymm hab), if_pos hab] at h2
        simp at h2
      · subst hab
        rw [if_neg (lt_irrefl a), if_neg (lt_irrefl a)] at h1 h2
        rw [lexLe_antisymm as bs h1 h2]
      · rw [if_neg (lt_asymm hab), if_pos hab] at h1
        simp at h1

theorem strLe_total (a b : String) : strLe a b ∨ strLe b a :=
  lexLe_total a.data b.data

theorem strLe_trans {a b c : String} (h1 : strLe a b) (h2 : strLe b c) : strLe a c :=
  lexLe_trans a.data b.data c.data h1 h2

theorem strLe_antisymm {a b : String} (h1 : strLe a b) (h2 : strLe b a) : a = b := by
  cases a
  cases b
  exact congrArg String.mk (lexLe_antisymm _ _ h1 h2)

/-- With positive denominators, `ratioLt` is the comparison of the rational
ratios. -/
theorem ratioLt_iff_div {a b : ℕ × ℕ} (ha : 0 < a.2) (hb : 0 < b.2) :
    ratioLt a b ↔ (a.1 : ℚ) / (a.2 : ℚ) < (b.1 : ℚ) / (b.2 : ℚ) := by
  rw [div_lt_div_iff₀ (by exact_mod_cast ha) (by exact_mod_cast hb), ratioLt]
  exact_mod_cast Iff.rfl

/-- With positive denominators, `ratioEq` is the equality of the rational
ratios. -/
theorem ratioEq_iff_div {a b : ℕ × ℕ} (ha : 0 < a.2) (hb : 0 < b.2) :
    ratioEq a b ↔ (a.1 : ℚ) / (a.2 : ℚ) = (b.1 : ℚ) / (b.2 : ℚ) := by
  rw [div_eq_div_iff (Nat.cast_ne_zero.mpr ha.ne') (Nat.cast_ne_zero.mpr hb.ne'), ratioEq]
  exact_mod_cast Iff.rfl

theorem rankRel_total (x y : String × (ℕ × ℕ)) : rankRel x y ∨ rankRel y x := by
  rcases Nat.lt_trichotomy (y.2.1 * x.2.2) (x.2.1 * y.2.2) with h | h | h
  · exact Or.inl (Or.inl h)
  · rcases strLe_total x.1 y.1 with hs | hs
    · exact Or.inl (Or.inr ⟨h.symm, hs⟩)
    · exact Or.inr (Or.inr ⟨h, hs⟩)
  · exact Or.inr (Or.inl h)

theorem rankRel_trans_of_pos {x y z : String × (ℕ × ℕ)}
    (hx : 0 < x.2.2) (hy : 0 < y.2.2) (hz : 0 < z.2.2)
    (h1 : rankRel x y) (h2 : rankRel y z) : rankRel x z := by
  rcases h1 with h1 | ⟨h1e, h1s⟩
  · rcases h2 with h2 | ⟨h2e, h2s⟩
    · exact Or.inl (by
        rw [ratioLt_iff_div hz hx]
        exact lt_trans ((ratioLt_iff_div hz hy).mp h2) ((ratioLt_iff_div hy hx).mp h1))
    · exact Or.inl (by
        rw [ratioLt_iff_div hz hx, ← (ratioEq_iff_div hy hz).mp h2e]
        exact (ratioLt_iff_div hy hx).mp h1)
  · rcases h2 with h2 | ⟨h2e, h2s⟩
    · exact Or.inl (by
        rw [ratioLt_iff_div hz hx, (ratioEq_iff_div hx hy).mp h1e]
        exact (ratioLt_iff_div hz hy).mp h2)
    · refine Or.inr ⟨?_, strLe_trans h1s h2s⟩
      rw [ratioEq_iff_div hx hz, (ratioEq_iff_div hx hy).mp h1e,
        (ratioEq_iff_div hy hz).mp h2e]

/-- Antisymmetry of `rankRel` up to the token: two entries each ranking
before the other carry the same token. -/
theorem rankRel_antisymm_token {x y : String × (ℕ × ℕ)}
    (h1 : rankRel x y) (h2 : rankRel y x) : x.1 = y.1 := by
  rcases h1 with h1 | ⟨h1e, h1s⟩
  · rcases h2 with h2 | ⟨h2e, h2s⟩
    · exact absurd h2 (by rw [ratioLt] at *; omega)
    · exact absurd h2e (by rw [ratioLt] at h1; rw [ratioEq]; omega)
  · rcases h2 with h2 | ⟨h2e, h2s⟩
    · exact absurd h1e (by rw [ratioLt] at h2; rw [ratioEq]; omega)
    · exact strLe_antisymm h1s h2s

/-! ### Sorting correctness for a relation that is transitive on the list

`rankRel` is totally defined but only transitive among entries with positive
denominators (all pipeline entries have them), so the stock instance-based
sorting lemmas do not apply; these are the standard insertion-sort
correctness statements with element-wise hypotheses. -/

theorem sorted_orderedInsert_local {α : Type} {r : α → α → Prop} [DecidableRel r]
    (total : ∀ a b, r a b ∨ r b a) (a : α) :
    ∀ l : List α, (∀ b ∈ l, ∀ c ∈ l, r a b → r b c → r a c) →
      l.Sorted r → (l.orderedInsert r a).Sorted r
  | [], _, _ => List.sorted_singleton a
  | b :: l, htr, hs => by
      by_cases hab : r a b
      · rw [List.orderedInsert, if_pos hab, List.sorted_cons]
        refine ⟨?_, hs⟩
        intro c hc
        rcases List.mem_cons.mp hc with rfl | hcl
        · exact hab
        · exact htr b (List.mem_cons_self _ _) c (List.mem_cons_of_mem _ hcl) hab
            (List.rel_of_sorted_cons hs c hcl)
      · rw [List.orderedInsert, if_neg hab, List.sorted_cons]
        constructor
        · intro c hc
          rcases (List.mem_orderedInsert r).mp hc with rfl | hcl
          · exact (total c b).resolve_left hab
          · exact List.rel_of_sorted_cons hs c hcl
        · exact sorted_orderedInsert_local total a l
            (fun b2 hb2 c2 hc2 => htr b2 (List.mem_cons_of_mem _ hb2) c2
              (List.mem_cons_of_mem _ hc2))
            hs.of_cons

theorem sorted_insertionSort_local {α : Type} {r : α → α → Prop} [DecidableRel r]
    (total : ∀ a b, r a b ∨ r b a) :
    ∀ l : List α, (∀ a ∈ l, ∀ b ∈ l, ∀ c ∈ l, r a b → r b c → r a c) →
      (l.insertionSort r).Sorted r
  | [], _ => List.sorted_nil
  | a :: t, htr => by
      rw [List.insertionSort]
      apply sorted_orderedInsert_local total
      · intro b hb c hc
        rw [List.mem_insertionSort] at hb hc
        exact htr a (List.mem_cons_self _ _) b (List.mem_cons_of_mem _ hb) c
          (List.mem_cons_of_mem _ hc)
      · exact sorted_insertionSort_local total t
          (fun a2 ha2 b2 hb2 c2 hc2 => htr a2 (List.mem_cons_of_mem _ ha2) b2
            (List.mem_cons_of_mem _ hb2) c2 (List.mem_cons_of_mem _ hc2))

/-- Two sorted lists that are permutations of one another are equal, with
antisymmetry required only among elements of the list. -/
theorem eq_of_perm_of_sorted_local {α : Type} {r : α → α → Prop} :
    ∀ {l₁ l₂ : List α}, l₁.Perm l₂ → l₁.Sorted r → l₂.Sorted r →
      (∀ x ∈ l₂, ∀ y ∈ l₂, r x y → r y x → x = y) → l₁ = l₂
  | [], l₂, hp, _, _, _ => hp.nil_eq
  | a :: t, l₂, hp, hs₁, hs₂, anti => by
      have ha₂ : a ∈ l₂ := hp.subset (List.mem_cons_self _ _)
      obtain ⟨u₂, v₂, rfl⟩ := List.append_of_mem ha₂
      have hsub : List.Sublist (u₂ ++ v₂) (u₂ ++ a :: v₂) := by simp
      have hp' : t.Perm (u₂ ++ v₂) := (List.perm_cons a).1 (hp.trans List.perm_middle)
      have ht : t = u₂ ++ v₂ :=
        eq_of_perm_of_sorted_local hp' hs₁.of_cons (hs₂.sublist hsub)
          (fun x hx y hy => anti x (hsub.subset hx) y (hsub.subset hy))
      subst ht
      have hxa : ∀ x ∈ u₂, x = a := by
        intro x hx
        have h1 : r x a :=
          (List.pairwise_append.1 hs₂).2.2 x hx a (List.mem_cons_self _ _)
        have h2 : r a x :=
          List.rel_of_sorted_cons hs₁ x (List.mem_append_left _ hx)
        exact anti x (List.mem_append_left _ hx) a ha₂ h1 h2
      have hcons : a :: u₂ = u₂ ++ [a] := by
        rw [(@List.eq_replicate_iff _ a (u₂.length + 1) (a :: u₂)).2,
          (@List.eq_replicate_iff _ a (u₂.length + 1) (u₂ ++ [a])).2]
        · constructor
          · simp
          · intro b hb
            rcases List.mem_append.mp hb with hb | hb
            · exact hxa b hb
            · simpa using hb
        · exact ⟨by simp, fun b hb => by
            rcases List.mem_cons.mp hb with rfl | hb
            · rfl
            · exact hxa b hb⟩
      calc a :: (u₂ ++ v₂) = (a :: u₂) ++ v₂ := rfl
        _ = (u₂ ++ [a]) ++ v₂ := by rw [hcons]
        _ = u₂ ++ a :: v₂ := by simp

/-- In a list whose first components are distinct, an element is determined
by its first component. -/
theorem eq_of_fst_eq_of_nodup {α β : Type} :
    ∀ {l : List (α × β)}, (l.map Prod.fst).Nodup →
      ∀ {x y : α × β}, x ∈ l → y ∈ l → x.1 = y.1 → x = y
  | [], _, _, _, hx, _, _ => absurd hx (List.not_mem_nil _)
  | p :: t, hnd, x, y, hx, hy, hf => by
      rw [List.map_cons, List.nodup_cons] at hnd
      rcases List.mem_cons.mp hx with rfl | hx2
      · rcases List.mem_cons.mp hy with rfl | hy2
        · rfl
        · exact absurd (hf ▸ List.mem_map.mpr ⟨y, hy2, rfl⟩) hnd.1
      · rcases List.mem_cons.mp hy with rfl | hy2
        · exact absurd (hf ▸ List.mem_map.mpr ⟨x, hx2, rfl⟩ : y.1 ∈ _) hnd.1
        · exact eq_of_fst_eq_of_nodup hnd.2 hx2 hy2 hf

/-! ### Facts about the pipeline stages -/

theorem lookup_isSome_iff {κ ν : Type} [BEq κ] [LawfulBEq κ] :
    ∀ {l : List (κ × ν)} {k : κ}, (l.lookup k).isSome ↔ k ∈ l.map Prod.fst
  | [], k => by simp [List.lookup]
  | (k₀, v₀) :: rest, k => by
      by_cases h : k = k₀
      · subst h
        simp [List.lookup]
      · have hbeq : (k == k₀) = false := by simpa using h
        simp [List.lookup, hbeq, lookup_isSome_iff, h]

theorem mem_valuesOf {κ ν : Type} [DecidableEq κ] {k : κ} {v : ν} {l : List (κ × ν)} :
    v ∈ valuesOf k l ↔ ∃ p, p ∈ l ∧ p.1 = k ∧ p.2 = v := by
  rw [valuesOf, List.mem_filterMap]
  constructor
  · rintro ⟨p, hp, hif⟩
    by_cases h : p.1 = k
    · rw [if_pos h] at hif
      exact ⟨p, hp, h, by injection hif⟩
    · rw [if_neg h] at hif
      cases hif
  · rintro ⟨p, hp, hk, hv⟩
    exact ⟨p, hp, by rw [if_pos hk, hv]⟩

theorem mem_foldl_union {t : String} :
    ∀ (vs : List (List String)) (v : List String),
      (t ∈ vs.foldl (fun a b => a ∪ b) v ↔ t ∈ v ∨ ∃ w ∈ vs, t ∈ w)
  | [], v => by simp
  | w :: ws, v => by
      rw [List.foldl_cons, mem_foldl_union ws (v ∪ w)]
      rw [List.mem_union_iff]
      constructor
      · rintro ((h | h) | ⟨u, hu, hw⟩)
        · exact Or.inl h
        · exact Or.inr ⟨w, List.mem_cons_self _ _, h⟩
        · exact Or.inr ⟨u, List.mem_cons_of_mem _ hu, hw⟩
      · rintro (h | ⟨u, hu, hw⟩)
        · exact Or.inl (Or.inl h)
        · rcases List.mem_cons.mp hu with rfl | hu2
          · exact Or.inl (Or.inr hw)
          · exact Or.inr ⟨u, hu2, hw⟩

theorem nodup_foldl_union :
    ∀ (vs : List (List String)) (v : List String), v.Nodup →
      (∀ w ∈ vs, w.Nodup) → (vs.foldl (fun a b => a ∪ b) v).Nodup
  | [], v, hv, _ => hv
  | w :: ws, v, hv, hws => by
      rw [List.foldl_cons]
      exact nodup_foldl_union ws (v ∪ w)
        (List.Nodup.union v (hws w (List.mem_cons_self _ _)))
        (fun u hu => hws u (List.mem_cons_of_mem _ hu))

theorem le_foldl_add : ∀ (vs : List ℕ) (acc : ℕ), acc ≤ vs.foldl (· + ·) acc
  | [], _ => le_refl _
  | v :: vs, acc => le_trans (Nat.le_add_right acc v) (le_foldl_add vs (acc + v))

/-- The keys of `inter_usertweets` are exactly the users of `usertweets`. -/
theorem lookup_inter_isSome_iff {tokenize : String → List String}
    {usertweets : List (String × String)} {u : String} :
    ((inter_usertweets tokenize usertweets).lookup u).isSome ↔
      u ∈ usertweets.map Prod.fst := by
  rw [lookup_isSome_iff, inter_usertweets, mem_keys_reduceByKey]
  constructor
  · intro h
    rcases List.mem_map.mp h with ⟨p, hp, hfst⟩
    rcases List.mem_map.mp hp with ⟨x, hx, rfl⟩
    exact List.mem_map.mpr ⟨x, hx, hfst⟩
  · intro h
    rcases List.mem_map.mp h with ⟨x, hx, hfst⟩
    exact List.mem_map.mpr ⟨(x.1, (tokenize x.2).dedup),
      List.mem_map.mpr ⟨x, hx, rfl⟩, hfst⟩

/-- What one user's token list holds: it is duplicate-free, and it holds a
token exactly when some tweet of the user tokenizes to it. -/
theorem lookup_inter_usertweets {tokenize : String → List String}
    {usertweets : List (String × String)} {u : String} {ts : List String}
    (h : (inter_usertweets tokenize usertweets).lookup u = some ts) :
    ts.Nodup ∧ ∀ t, (t ∈ ts ↔ ∃ txt, (u, txt) ∈ usertweets ∧ t ∈ tokenize txt) := by
  rw [inter_usertweets, lookup_reduceByKey] at h
  cases hv : valuesOf u (usertweets.map fun x => (x.1, (tokenize x.2).dedup)) with
  | nil => rw [hv] at h; cases h
  | cons v vs =>
      rw [hv] at h
      rw [combineAll] at h
      obtain rfl : ts = vs.foldl (fun a b => a ∪ b) v := (Option.some.inj h).symm
      constructor
      · apply nodup_foldl_union
        · have hvmem : v ∈ valuesOf u
              (usertweets.map fun x => (x.1, (tokenize x.2).dedup)) := by
            rw [hv]; exact List.mem_cons_self _ _
          rcases mem_valuesOf.mp hvmem with ⟨p, hp, hk, hval⟩
          rcases List.mem_map.mp hp with ⟨x, hx, rfl⟩
          rw [← hval]
          exact List.nodup_dedup _
        · intro w hw
          have hwmem : w ∈ valuesOf u
              (usertweets.map fun x => (x.1, (tokenize x.2).dedup)) := by
            rw [hv]; exact List.mem_cons_of_mem _ hw
          rcases mem_valuesOf.mp hwmem with ⟨p, hp, hk, hval⟩
          rcases List.mem_map.mp hp with ⟨x, hx, rfl⟩
          rw [← hval]
          exact List.nodup_dedup _
      · intro t
        rw [mem_foldl_union]
        constructor
        · rintro (htv | ⟨w, hwvs, htw⟩)
          · have hvmem : v ∈ valuesOf u
                (usertweets.map fun x => (x.1, (tokenize x.2).dedup)) := by
              rw [hv]; exact List.mem_cons_self _ _
            rcases mem_valuesOf.mp hvmem with ⟨p, hp, hk, hval⟩
            rcases List.mem_map.mp hp with ⟨x, hx, rfl⟩
            refine ⟨x.2, ?_, ?_⟩
            · have hxu : x = (u, x.2) := by
                rw [← hk]
              rw [← hxu]
              exact hx
            · rw [← hval] at htv
              exact List.mem_dedup.mp htv
          · have hwmem : w ∈ valuesOf u
                (usertweets.map fun x => (x.1, (tokenize x.2).dedup)) := by
              rw [hv]; exact List.mem_cons_of_mem _ hwvs
            rcases mem_valuesOf.mp hwmem with ⟨p, hp, hk, hval⟩
            rcases List.mem_map.mp hp with ⟨x, hx, rfl⟩
            refine ⟨x.2, ?_, ?_⟩
            · have hxu : x = (u, x.2) := by
                rw [← hk]
              rw [← hxu]
              exact hx
            · rw [← hval] at htw
              exact List.mem_dedup.mp htw
        · rintro ⟨txt, htxt, htk⟩
          have hmem : (tokenize txt).dedup ∈ valuesOf u
              (usertweets.map fun x => (x.1, (tokenize x.2).dedup)) :=
            mem_valuesOf.mpr ⟨(u, (tokenize txt).dedup),
              List.mem_map.mpr ⟨(u, txt), htxt, rfl⟩, rfl, rfl⟩
          rw [hv] at hmem
          rcases List.mem_cons.mp hmem with heq | hmem2
          · exact Or.inl (heq ▸ List.mem_dedup.mpr htk)
          · exact Or.inr ⟨_, hmem2, List.mem_dedup.mpr htk⟩

theorem count_pair_map_eq (k t : String) (ts : List String) :
    (ts.map (fun t2 => (k, t2))).count (k, t) = ts.count t := by
  induction ts with
  | nil => rfl
  | cons s ss ih =>
      rw [List.map_cons, List.count_cons, List.count_cons, ih]
      congr 1
      simp

theorem count_pair_map_ne {k u : String} (h : k ≠ u) (t : String) (ts : List String) :
    (ts.map (fun t2 => (k, t2))).count (u, t) = 0 := by
  rw [List.count_eq_zero]
  intro hc
  rcases List.mem_map.mp hc with ⟨s, hs, heq⟩
  exact h (congrArg Prod.fst heq)

/-- Counting one `(user, token)` pair in the flattened mention pairs of a
per-user table with distinct users. -/
theorem count_mention_pairs {l : List (String × List String)}
    (hnd : (l.map Prod.fst).Nodup) (u t : String) :
    (l.flatMap (fun p => p.2.map (fun t2 => (p.1, t2)))).count (u, t) =
      (match l.lookup u with
       | none => 0
       | some ts => ts.count t) := by
  induction l with
  | nil => simp [List.lookup]
  | cons p rest ih =>
      rw [List.flatMap_cons, List.count_append]
      rw [List.map_cons, List.nodup_cons] at hnd
      cases p with
      | mk k ts =>
          by_cases hk : k = u
          · subst hk
            rw [count_pair_map_eq]
            have hz : ((rest.flatMap fun p => p.2.map (fun t2 => (p.1, t2))).count
                (k, t)) = 0 := by
              rw [List.count_eq_zero]
              intro hc
              rcases List.mem_flatMap.mp hc with ⟨q, hq, hmem⟩
              rcases List.mem_map.mp hmem with ⟨s, hs, heq⟩
              have hq1 : q.1 = k := congrArg Prod.fst heq
              exact hnd.1 (hq1 ▸ List.mem_map.mpr ⟨q, hq, rfl⟩)
            rw [hz, List.lookup]
            simp
          · rw [count_pair_map_ne hk, ih hnd.2]
            have hbeq : (u == k) = false := by
              simp
              exact fun hc => hk hc.symm
            rw [List.lookup, hbeq]
            simp

theorem mem_rankTokens {x : String × (ℕ × ℕ)} {A : List (String × (ℕ × ℕ))}
    (h : x ∈ rankTokens A) : x ∈ A := by
  rw [rankTokens] at h
  exact (List.mem_insertionSort rankRel).mp ((List.take_sublist _ _).subset h)

/-- Every `((group, token), count)` entry of `interresults_counts` has a
token that survived the popularity filter and a positive user count. -/
theorem interresults_mem {tokenize : String → List String}
    {mypickle : String → Option ℕ} {utw : List (String × String)}
    {ky : (ℕ × String) × ℕ} (h : ky ∈ interresults_counts tokenize mypickle utw) :
    ((tokens tokenize utw).lookup ky.1.2).isSome = true ∧ 0 < ky.2 := by
  have hlk : (interresults_counts tokenize mypickle utw).lookup ky.1 = some ky.2 :=
    lookup_eq_some_of_mem
      (by rw [interresults_counts]; exact nodup_keys_reduceByKey _ _) h
  rw [interresults_counts, lookup_reduceByKey] at hlk
  cases hv : valuesOf ky.1
      (((mention_pairs tokenize utw).filter
          (fun x => ((tokens tokenize utw).lookup x.2).isSome)).map
        (fun x => ((help4 mypickle x.1, x.2), 1))) with
  | nil => rw [hv] at hlk; cases hlk
  | cons v vs =>
      rw [hv, combineAll] at hlk
      have hky2 : ky.2 = vs.foldl (· + ·) v := (Option.some.inj hlk).symm
      have hvmem : v ∈ valuesOf ky.1
          (((mention_pairs tokenize utw).filter
              (fun x => ((tokens tokenize utw).lookup x.2).isSome)).map
            (fun x => ((help4 mypickle x.1, x.2), 1))) := by
        rw [hv]
        exact List.mem_cons_self _ _
      rcases mem_valuesOf.mp hvmem with ⟨p, hp, hk1, hv1⟩
      rcases List.mem_map.mp hp with ⟨x, hx, rfl⟩
      constructor
      · have hpred := (List.mem_filter.mp hx).2
        have hsnd : ky.1.2 = x.2 := by rw [← hk1]
        rw [hsnd]
        exact hpred
      · have hvone : v = 1 := hv1.symm
        rw [hky2, hvone] at *
        exact lt_of_lt_of_le one_pos (le_foldl_add vs 1)

/-- A successful lookup in the filtered token table comes from the unfiltered
counts and is at least 100. -/
theorem tokens_lookup_sound {tokenize : String → List String}
    {utw : List (String × String)} {t : String} {c2 : ℕ}
    (h : (tokens tokenize utw).lookup t = some c2) :
    (tokenCounts tokenize utw).lookup t = some c2 ∧ 100 ≤ c2 := by
  have hmem := mem_of_lookup_eq_some h
  rw [tokens] at hmem
  have hmf := List.mem_filter.mp hmem
  constructor
  · exact lookup_eq_some_of_mem
      (by rw [tokenCounts]; exact nodup_keys_reduceByKey _ _) hmf.1
  · simpa using hmf.2

theorem interresults_key_lt8 {tokenize : String → List String}
    {mypickle : String → Option ℕ} {utw : List (String × String)}
    (hpk : ∀ u gid, mypickle u = some gid → gid < 8) {ky : ℕ × String}
    (h : ky ∈ (interresults_counts tokenize mypickle utw).map Prod.fst) :
    ky.1 < 8 := by
  rw [interresults_counts, mem_keys_reduceByKey, List.map_map] at h
  rcases List.mem_map.mp h with ⟨x, hx, heq⟩
  have hfst : ky.1 = help4 mypickle x.1 := by rw [← heq]; rfl
  rw [hfst]
  rcases hmp : mypickle x.1 with _ | gid
  · simp [help4, hmp]
  · have := hpk x.1 gid hmp
    simp [help4, hmp]
    omega

theorem group_tokens_eq {tokenize : String → List String}
    {mypickle : String → Option ℕ} {utw : List (String × String)} {g : ℕ} :
    ((((scored tokenize mypickle utw).filter (fun x => x.1 % 8 == g)).map
        Prod.snd).map Prod.fst) =
      (((interresults_counts tokenize mypickle utw).map Prod.fst).filter
        (fun ky => ky.1 % 8 == g)).map Prod.snd := by
  rw [scored, List.filter_map, List.map_map, List.map_map, List.filter_map,
    List.map_map]
  rfl

theorem nodup_group_tokens {tokenize : String → List String}
    {mypickle : String → Option ℕ} {utw : List (String × String)} {g : ℕ}
    (hpk : ∀ u gid, mypickle u = some gid → gid < 8) :
    ((((scored tokenize mypickle utw).filter (fun x => x.1 % 8 == g)).map
        Prod.snd).map Prod.fst).Nodup := by
  rw [group_tokens_eq]
  apply List.Nodup.map_on
  · intro x hx y hy hf
    have hx8 := interresults_key_lt8 hpk (List.mem_of_mem_filter hx)
    have hy8 := interresults_key_lt8 hpk (List.mem_of_mem_filter hy)
    have hx1 : x.1 % 8 = g := by simpa using (List.mem_filter.mp hx).2
    have hy1 : y.1 % 8 = g := by simpa using (List.mem_filter.mp hy).2
    have hfst : x.1 = y.1 := by
      rw [Nat.mod_eq_of_lt hx8] at hx1
      rw [Nat.mod_eq_of_lt hy8] at hy1
      omega
    exact Prod.ext hfst hf
  · exact List.Nodup.filter _ (nodup_keys_reduceByKey _ _)

/-- Every entry of `scored` has a positive group count and a global count of
at least 100. -/
theorem scored_entry_pos {tokenize : String → List String}
    {mypickle : String → Option ℕ} {utw : List (String × String)}
    {e : ℕ × (String × (ℕ × ℕ))} (he : e ∈ scored tokenize mypickle utw) :
    0 < e.2.2.1 ∧ 100 ≤ e.2.2.2 := by
  rw [scored] at he
  rcases List.mem_map.mp he with ⟨x, hx, rfl⟩
  obtain ⟨hsome, hpos⟩ := interresults_mem hx
  cases hlk : (tokens tokenize utw).lookup x.1.2 with
  | none => rw [hlk] at hsome; cases hsome
  | some c2 =>
      obtain ⟨-, h100⟩ := tokens_lookup_sound hlk
      exact ⟨hpos, by simpa [hlk] using h100⟩

theorem group_entry_pos {tokenize : String → List String}
    {mypickle : String → Option ℕ} {utw : List (String × String)} {g : ℕ}
    {p : String × (ℕ × ℕ)}
    (hp : p ∈ ((scored tokenize mypickle utw).filter
        (fun x => x.1 % 8 == g)).map Prod.snd) :
    0 < p.2.1 ∧ 100 ≤ p.2.2 := by
  rcases List.mem_map.mp hp with ⟨e, he, rfl⟩
  exact scored_entry_pos (List.mem_of_mem_filter he)

theorem ratioLt_iff_realScore {a b : ℕ × ℕ} (ha1 : 0 < a.1) (ha2 : 0 < a.2)
    (hb1 : 0 < b.1) (hb2 : 0 < b.2) :
    ratioLt a b ↔ realScore a < realScore b := by
  rw [realScore, realScore,
    Real.logb_lt_logb_iff (by norm_num)
      (div_pos (by exact_mod_cast ha1) (by exact_mod_cast ha2))
      (div_pos (by exact_mod_cast hb1) (by exact_mod_cast hb2)),
    div_lt_div_iff₀ (by exact_mod_cast ha2) (by exact_mod_cast hb2), ratioLt]
  exact_mod_cast Iff.rfl

theorem ratioEq_iff_realScore {a b : ℕ × ℕ} (ha1 : 0 < a.1) (ha2 : 0 < a.2)
    (hb1 : 0 < b.1) (hb2 : 0 < b.2) :
    ratioEq a b ↔ realScore a = realScore b := by
  have hab := ratioLt_iff_realScore ha1 ha2 hb1 hb2
  have hba := ratioLt_iff_realScore hb1 hb2 ha1 ha2
  rw [ratioLt] at hab hba
  constructor
  · intro h
    rw [ratioEq] at h
    have h1 : ¬ realScore a < realScore b := by rw [← hab]; omega
    have h2 : ¬ realScore b < realScore a := by rw [← hba]; omega
    exact le_antisymm (not_lt.mp h2) (not_lt.mp h1)
  · intro h
    have h1 : ¬ a.1 * b.2 < b.1 * a.2 := by rw [hab, h]; exact lt_irrefl _
    have h2 : ¬ b.1 * a.2 < a.1 * b.2 := by rw [hba, h]; exact lt_irrefl _
    rw [ratioEq]
    omega

/-- On entries with positive counts (as all pipeline entries are), the
comparator used by `sortBy` agrees with the spec's score ordering. -/
theorem rankRel_iff_scoreRel {x y : String × (ℕ × ℕ)}
    (hx1 : 0 < x.2.1) (hx2 : 0 < x.2.2) (hy1 : 0 < y.2.1) (hy2 : 0 < y.2.2) :
    rankRel x y ↔ scoreRel x y := by
  rw [rankRel, scoreRel,
    ratioLt_iff_realScore hy1 hy2 hx1 hx2,
    ratioEq_iff_realScore hx1 hx2 hy1 hy2]

theorem get_rel_popularity_eq_realScore {c_k c_all : ℕ}
    (h1 : 0 < c_k) (h2 : 0 < c_all) :
    get_rel_popularity c_k c_all = some (realScore (c_k, c_all)) := by
  rw [get_rel_popularity, if_neg h2.ne', if_neg h1.ne', realScore, Real.logb]

end Hw2

/-- C7: for every input string (including the empty string and non-ASCII
characters), the normalizer `myfilter` totally maps each character: an
alphabetic character to its lowercase form, a digit to itself, and every
other character to exactly one space (no collapsing); in particular
normalizing "To know you is to love you." yields
"to know you is to love you ". -/
theorem claim_C7_normalizer_char_map (s : String) :
    (Hw1.myfilter s).data = s.data.map Hw1.normChar ∧
    Hw1.myfilter "To know you is to love you." = "to know you is to love you " :=
  ⟨Hw1.myfilter_data s, by decide⟩

/-- C9: the normalizer is idempotent: `myfilter (myfilter s) = myfilter s`
for every string `s`. -/
theorem claim_C9_normalizer_idempotent (s : String) :
    Hw1.myfilter (Hw1.myfilter s) = Hw1.myfilter s := by
  have h : (Hw1.myfilter (Hw1.myfilter s)).data = (Hw1.myfilter s).data := by
    rw [Hw1.myfilter_data, Hw1.myfilter_data, List.map_map]
    simp [Function.comp_def, Hw1.normChar_idem]
  cases hm : Hw1.myfilter (Hw1.myfilter s)
  cases hn : Hw1.myfilter s
  rw [hm, hn] at h
  exact congrArg String.mk (by simpa using h)

/-- C8: for every segment and order `n ≥ 1`, `mysplit` returns the
left-to-right windows of `n` consecutive whitespace-separated words joined by
single spaces; the result has exactly `max 0 (w - n + 1)` entries for a
segment of `w` words, and a segment with fewer than `n` words yields `[]`
rather than an error. -/
theorem claim_C8_ngram_extractor (s : String) (n : ℕ) (h : 1 ≤ n) :
    ((Hw1.mysplit s n).length : ℤ) = max 0 (((Hw1.pySplit s).length : ℤ) - n + 1) ∧
    (∀ i (hi : i < (Hw1.mysplit s n).length),
      (Hw1.mysplit s n).get ⟨i, hi⟩ = " ".intercalate (((Hw1.pySplit s).drop i).take n)) ∧
    ((Hw1.pySplit s).length < n → Hw1.mysplit s n = []) := by
  refine ⟨?_, ?_, ?_⟩
  · simp only [Hw1.mysplit, List.length_map, List.length_range]
    omega
  · intro i hi
    simp only [Hw1.mysplit, List.get_eq_getElem, List.getElem_map, List.getElem_range]
  · intro hlt
    have h0 : ((((Hw1.pySplit s).length : ℤ) - n + 1)).toNat = 0 := by omega
    simp [Hw1.mysplit, h0]

/-- Witness for C8: a concrete run at order 2 on a three-word sentence. -/
theorem claim_C8_ngram_extractor_witness :
    Hw1.mysplit "to know you" 2 = ["to know", "know you"] ∧
    ((Hw1.mysplit "to know you" 2).length : ℤ) =
      max 0 (((Hw1.pySplit "to know you").length : ℤ) - 2 + 1) :=
  ⟨by decide, (claim_C8_ngram_extractor "to know you" 2 (by decide)).1⟩

/-- C10: `printOutput` is partial: it succeeds exactly when the aggregated
collection holds at least 5 distinct n-grams, and on an input with fewer
than 5 entries it fails with an index error (modelled as `none`) instead of
printing a shorter list. -/
theorem claim_C10_printOutput_needs_five :
    (∀ freq : List (String × ℕ), (Hw1.printOutput freq).isSome ↔ 5 ≤ freq.length) ∧
    Hw1.printOutput [("a", 40), ("the", 25), ("and", 21), ("to", 16)] = none := by
  refine ⟨?_, by decide⟩
  intro freq
  have hr : List.range 5 = [0, 1, 2, 3, 4] := by decide
  rcases freq with _ | ⟨a, _ | ⟨b, _ | ⟨c, _ | ⟨d, _ | ⟨e, rest⟩⟩⟩⟩⟩ <;>
    simp [Hw1.printOutput, hr, Hw1.forEachIdx]

/-- Witness for C10: the success direction at a 5-element concrete input. -/
theorem claim_C10_printOutput_needs_five_witness :
    (Hw1.printOutput [("a", 5), ("b", 4), ("c", 3), ("d", 2), ("e", 1)]).isSome :=
  (claim_C10_printOutput_needs_five.1 _).mpr (by decide)

/-- C1: for every user group, the final per-group ranking is the descending
relative-popularity order of the group's `(token, score)` entries (score
ties broken by ascending lexical token order) cut to its first 10 entries
(fewer when fewer tokens qualify).  `B` is any listing of the group's
entries in that order; the entries carry `(c_k, c_all)` and their score is
`realScore`, the `log2` ratio the script stores.  The hypothesis on
`mypickle` is the data-model invariant that partition ids lie in `[0, 6]`
(less than 8 suffices). -/
theorem claim_C1_group_ranking_order (tokenize : String → List String)
    (mypickle : String → Option ℕ) (utw : List (String × String)) (g : ℕ)
    (B : List (String × (ℕ × ℕ)))
    (hpk : ∀ u gid, mypickle u = some gid → gid < 8)
    (hperm : (((Hw2.scored tokenize mypickle utw).filter
        (fun x => x.1 % 8 == g)).map Prod.snd).Perm B)
    (hsorted : B.Sorted Hw2.scoreRel) :
    Hw2.group_ranking tokenize mypickle utw g = B.take 10 ∧
    (Hw2.group_ranking tokenize mypickle utw g).length =
      min 10 (((Hw2.scored tokenize mypickle utw).filter
        (fun x => x.1 % 8 == g)).map Prod.snd).length := by
  have hpos : ∀ p ∈ ((Hw2.scored tokenize mypickle utw).filter
      (fun x => x.1 % 8 == g)).map Prod.snd, 0 < p.2.1 ∧ 0 < p.2.2 := by
    intro p hp
    obtain ⟨h1, h2⟩ := Hw2.group_entry_pos hp
    exact ⟨h1, by omega⟩
  have hS : ((((Hw2.scored tokenize mypickle utw).filter
      (fun x => x.1 % 8 == g)).map Prod.snd).insertionSort Hw2.rankRel).Sorted
        Hw2.rankRel :=
    Hw2.sorted_insertionSort_local Hw2.rankRel_total _
      (fun a ha b hb c hc hab hbc =>
        Hw2.rankRel_trans_of_pos (hpos a ha).2 (hpos b hb).2 (hpos c hc).2 hab hbc)
  have hmemB : ∀ p ∈ B, p ∈ ((Hw2.scored tokenize mypickle utw).filter
      (fun x => x.1 % 8 == g)).map Prod.snd := fun p hp => hperm.symm.subset hp
  have hBsorted : B.Sorted Hw2.rankRel := by
    apply List.Pairwise.imp_of_mem ?_ hsorted
    intro a b ha hb hday
    exact (Hw2.rankRel_iff_scoreRel
      (hpos a (hmemB a ha)).1 (hpos a (hmemB a ha)).2
      (hpos b (hmemB b hb)).1 (hpos b (hmemB b hb)).2).mpr hday
  have hperm2 : ((((Hw2.scored tokenize mypickle utw).filter
      (fun x => x.1 % 8 == g)).map Prod.snd).insertionSort Hw2.rankRel).Perm B :=
    (List.perm_insertionSort Hw2.rankRel _).trans hperm
  have hBnodup : (B.map Prod.fst).Nodup := by
    have hL := @Hw2.nodup_group_tokens tokenize mypickle utw g hpk
    exact ((hperm.map Prod.fst).nodup_iff).mp hL
  have heq : (((Hw2.scored tokenize mypickle utw).filter
      (fun x => x.1 % 8 == g)).map Prod.snd).insertionSort Hw2.rankRel = B :=
    Hw2.eq_of_perm_of_sorted_local hperm2 hS hBsorted
      (fun x hx y hy hxy hyx =>
        Hw2.eq_of_fst_eq_of_nodup hBnodup hx hy (Hw2.rankRel_antisymm_token hxy hyx))
  constructor
  · rw [Hw2.group_ranking, Hw2.rankTokens, heq]
  · rw [Hw2.group_ranking, Hw2.rankTokens, List.length_take,
      (List.perm_insertionSort Hw2.rankRel _).length_eq]

/-- C3: each user contributes exactly 1 to the `(group, token)` mention
counter when the token occurs in at least one of the user's tweets and 0
otherwise, however many tweets or repeat mentions contain it: the stream of
`(user, token)` pairs that feeds the counter (`mention_pairs`, the
`flatMapValues` of `inter_usertweets` on hw2.py line 700) carries each
`(u, t)` once if some tweet of `u` tokenizes to `t`, never otherwise. -/
theorem claim_C3_per_user_mention_cap (tokenize : String → List String)
    (usertweets : List (String × String)) (u t : String) :
    (Hw2.mention_pairs tokenize usertweets).count (u, t) =
      if usertweets.any (fun p => p.1 == u && (tokenize p.2).contains t) then 1
      else 0 := by
  rw [Hw2.mention_pairs,
    Hw2.count_mention_pairs
      (by rw [Hw2.inter_usertweets]; exact Hw2.nodup_keys_reduceByKey _ _)]
  cases hlk : (Hw2.inter_usertweets tokenize usertweets).lookup u with
  | none =>
      have hu : u ∉ usertweets.map Prod.fst := by
        rw [← @Hw2.lookup_inter_isSome_iff tokenize usertweets u, hlk]
        simp
      have hany : usertweets.any
          (fun p => p.1 == u && (tokenize p.2).contains t) = false := by
        rw [Bool.eq_false_iff]
        intro hc
        rcases List.any_eq_true.mp hc with ⟨p, hp, hcond⟩
        rcases (Bool.and_eq_true _ _).mp hcond with ⟨hp1, -⟩
        exact hu (List.mem_map.mpr ⟨p, hp, by simpa using hp1⟩)
      rw [hany]
      simp
  | some ts =>
      obtain ⟨hnodup, hiff⟩ := Hw2.lookup_inter_usertweets hlk
      by_cases hin : t ∈ ts
      · rcases (hiff t).mp hin with ⟨txt, htxt, htk⟩
        have hany : usertweets.any
            (fun p => p.1 == u && (tokenize p.2).contains t) = true :=
          List.any_eq_true.mpr ⟨(u, txt), htxt,
            by simp [List.elem_iff]; exact htk⟩
        rw [hany, if_pos rfl]
        exact List.count_eq_one_of_mem hnodup hin
      · have hany : usertweets.any
            (fun p => p.1 == u && (tokenize p.2).contains t) = false := by
          rw [Bool.eq_false_iff]
          intro hc
          rcases List.any_eq_true.mp hc with ⟨p, hp, hcond⟩
          rcases (Bool.and_eq_true _ _).mp hcond with ⟨hp1, hp2⟩
          apply hin
          refine (hiff t).mpr ⟨p.2, ?_, ?_⟩
          · have hp1e : p.1 = u := by simpa using hp1
            rw [← hp1e]
            exact hp
          · simpa [List.elem_iff] using hp2
        rw [hany]
        simp
        exact List.count_eq_zero.mpr hin

/-- Witness for C3: a user with two tweets mentioning a token repeatedly
still contributes one mention pair. -/
theorem claim_C3_per_user_mention_cap_witness :
    (Hw2.mention_pairs (fun s => [s, s]) [("u1", "hi"), ("u1", "hi")]).count
        ("u1", "hi") =
      if ([("u1", "hi"), ("u1", "hi")] : List (String × String)).any
          (fun p => p.1 == "u1" && ((fun s : String => [s, s]) p.2).contains "hi")
        then 1 else 0 :=
  claim_C3_per_user_mention_cap (fun s => [s, s]) [("u1", "hi"), ("u1", "hi")]
    "u1" "hi"

/-- C4: a token whose across-all-groups distinct-user count is strictly
below 100 never appears in any group's ranking, and a token whose count is
exactly 100 is retained by the popularity filter (`filter x[1] >= 100` and
the `x[1] in dic` membership filter of hw2.py lines 563 and 700). -/
theorem claim_C4_popularity_threshold (tokenize : String → List String)
    (mypickle : String → Option ℕ) (utw : List (String × String)) (t : String) :
    (((Hw2.tokenCounts tokenize utw).lookup t).getD 0 < 100 →
      ∀ g, t ∉ (Hw2.group_ranking tokenize mypickle utw g).map Prod.fst) ∧
    ((Hw2.tokenCounts tokenize utw).lookup t = some 100 →
      t ∈ (Hw2.tokens tokenize utw).map Prod.fst) := by
  constructor
  · intro hlt g hmem
    rcases List.mem_map.mp hmem with ⟨p, hp, hteq⟩
    have hpL := Hw2.mem_rankTokens hp
    rcases List.mem_map.mp hpL with ⟨e, he, hpe⟩
    have hescored := List.mem_of_mem_filter he
    rw [Hw2.scored] at hescored
    rcases List.mem_map.mp hescored with ⟨x, hx, heq⟩
    obtain ⟨hsome, -⟩ := Hw2.interresults_mem hx
    have ht : t = x.1.2 := by rw [← hteq, ← hpe, ← heq]
    cases hlk : (Hw2.tokens tokenize utw).lookup x.1.2 with
    | none => rw [hlk] at hsome; cases hsome
    | some c2 =>
        obtain ⟨hcnt, h100⟩ := Hw2.tokens_lookup_sound hlk
        rw [ht, hcnt] at hlt
        simp at hlt
        omega
  · intro h100
    have hmem : (t, 100) ∈ Hw2.tokenCounts tokenize utw :=
      Hw2.mem_of_lookup_eq_some h100
    have hmemf : (t, 100) ∈ Hw2.tokens tokenize utw := by
      rw [Hw2.tokens]
      exact List.mem_filter.mpr ⟨hmem, by simp⟩
    exact List.mem_map.mpr ⟨(t, 100), hmemf, rfl⟩

/-- Witness for C4: on `utwW`, the token "rare" (1 user) is absent from
group 7's ranking and the token "pop" (exactly 100 users) is retained. -/
theorem claim_C4_popularity_threshold_witness :
    ("rare" ∉ (Hw2.group_ranking tokW (fun _ => none) utwW 7).map Prod.fst) ∧
    "pop" ∈ (Hw2.tokens tokW utwW).map Prod.fst :=
  ⟨(claim_C4_popularity_threshold tokW (fun _ => none) utwW "rare").1 (by decide) 7,
   (claim_C4_popularity_threshold tokW (fun _ => none) utwW "pop").2 (by decide)⟩

/-- Witness for C1: on `utwW` group 7 holds the single qualifying entry
`("pop", (100, 100))`, and the ranking equals that one-entry sorted listing
cut to 10. -/
theorem claim_C1_group_ranking_order_witness :
    Hw2.group_ranking tokW (fun _ => none) utwW 7 =
      ([("pop", (100, 100))] : List (String × (ℕ × ℕ))).take 10 ∧
    (Hw2.group_ranking tokW (fun _ => none) utwW 7).length =
      min 10 (((Hw2.scored tokW (fun _ => none) utwW).filter
        (fun x => x.1 % 8 == 7)).map Prod.snd).length :=
  claim_C1_group_ranking_order tokW (fun _ => none) utwW 7 [("pop", (100, 100))]
    (fun _ _ h => Option.noConfusion h) (by decide) (List.sorted_singleton _)

/-- C2: for counts `1 ≤ c_k ≤ c_all`, `get_rel_popularity c_k c_all` returns
`log2(c_k / c_all)` and that value is at most 0; when the global count is 0
the computation fails cleanly (`none`, a `ZeroDivisionError` in the script)
instead of returning a value. -/
theorem claim_C2_rel_popularity (c_k c_all : ℕ) (h1 : 1 ≤ c_k) (h2 : c_k ≤ c_all) :
    (Hw2.get_rel_popularity c_k c_all =
        some (Real.logb 2 ((c_k : ℝ) / (c_all : ℝ))) ∧
      Real.logb 2 ((c_k : ℝ) / (c_all : ℝ)) ≤ 0) ∧
    ∀ m, Hw2.get_rel_popularity m 0 = none := by
  have hall : 0 < c_all := lt_of_lt_of_le h1 h2
  refine ⟨⟨?_, ?_⟩, ?_⟩
  · rw [Hw2.get_rel_popularity, if_neg hall.ne', if_neg (by omega : ¬ c_k = 0),
      Real.logb]
  · apply Real.logb_nonpos (by norm_num)
    · positivity
    · rw [div_le_one (by exact_mod_cast hall)]
      exact_mod_cast h2
  · intro m
    rw [Hw2.get_rel_popularity, if_pos rfl]

/-- Witness for C2: the concrete scenario `c_k = 5`, `c_all = 20`. -/
theorem claim_C2_rel_popularity_witness :
    (Hw2.get_rel_popularity 5 20 =
        some (Real.logb 2 (((5 : ℕ) : ℝ) / ((20 : ℕ) : ℝ))) ∧
      Real.logb 2 (((5 : ℕ) : ℝ) / ((20 : ℕ) : ℝ)) ≤ 0) ∧
    ∀ m, Hw2.get_rel_popularity m 0 = none :=
  claim_C2_rel_popularity 5 20 (by decide) (by decide)

/-- Counterexample for C5: a line that parses to `{"user": {}}` — a record
with the user object but missing `user.id_str` and `text` — is kept by
`safe_parse`, and the field-extraction stage then fails (`KeyError`) instead
of discarding the record and continuing. -/
theorem claim_C5_missing_field_raises :
    Hw2.safe_parse (fun _ => some (Hw2.Json.obj [("user", Hw2.Json.obj [])])) "L" =
      some [Hw2.Json.obj [("user", Hw2.Json.obj [])]] ∧
    Hw2.extract_pair (Hw2.Json.obj [("user", Hw2.Json.obj [])]) = none ∧
    Hw2.usertweets_model
      (fun _ => some (Hw2.Json.obj [("user", Hw2.Json.obj [])])) ["L"] = none :=
  ⟨rfl, rfl, rfl⟩

/-- C5 (amended): an input line that is unparsable JSON, or whose parsed
object lacks the `user` field, is discarded by `safe_parse` and the pipeline
over the remaining lines is unaffected; a record that has `user` but lacks
`user.id_str` or `text` is NOT discarded — the extraction stage fails on it
(see `claim_C5_missing_field_raises`). -/
theorem claim_C5_malformed_skipped (loads : String → Option Hw2.Json)
    (line : String) (rest : List String)
    (h : loads line = none ∨
      ∃ fields, loads line = some (Hw2.Json.obj fields) ∧
        fields.any (fun p => p.1 == "user") = false) :
    Hw2.usertweets_model loads (line :: rest) = Hw2.usertweets_model loads rest := by
  have hsp : Hw2.safe_parse loads line = some [] := by
    rcases h with h | ⟨fields, hl, hany⟩
    · rw [Hw2.safe_parse, h]
    · rw [Hw2.safe_parse, hl]
      simp [hany]
  cases hrest : Hw2.mapOrFail (Hw2.safe_parse loads) rest with
  | none => simp [Hw2.usertweets_model, Hw2.mapOrFail, hsp, hrest]
  | some parsed => simp [Hw2.usertweets_model, Hw2.mapOrFail, hsp, hrest]

/-- Witness for C5 (amended): an unparsable line alone yields the same
(empty, non-raising) result as no input at all. -/
theorem claim_C5_malformed_skipped_witness :
    Hw2.usertweets_model (fun _ => none) ["bad"] =
      Hw2.usertweets_model (fun _ => none) [] :=
  claim_C5_malformed_skipped (fun _ => none) "bad" [] (Or.inl rfl)

/-- C6 fails on the code: with `preserve_case = False` the emoticon token
":D" is lower-cased to ":d" — `emoticon_re` was compiled from
`regex_strings[1]`, the URL pattern, instead of the emoticon pattern at
index 2, contradicting the tokenizer's own documentation ("avoid changing
emoticons like :D into :d", hw2.py line 436).  Tokens holding a URL are the
ones that keep their case. -/
theorem claim_C6_emoticon_case_bug :
    Hw2.tokenize_case_step false [":D"] = [":d"] ∧
    Hw2.isEmoticon ":D" = true ∧
    Hw2.emoticon_re_search ":D" = false ∧
    Hw2.tokenize_case_step false ["http://A"] = ["http://A"] := by decide
